import Mathlib

/-!
Formal model of the babylonify row-filtering pipeline (src/main.rs).

Text is modelled as a sequence of Unicode scalar values (`List Char`).
The Unicode character classes consulted by the Rust code (the regex
classes for whitespace, letters and punctuation, and the whitespace
notion of trimming) are abstracted into a `CharClass` record of boolean
predicates; theorems take the Unicode facts they rely on as explicit
hypotheses.  The lingua language detector is an opaque collaborator and
is modelled as a function from text to `Option Lang`, returning the best
match or `none` for an undetermined result.
-/

namespace Babylonify

/-- Text: a sequence of Unicode scalar values. -/
abbrev Str := List Char

/-- Shorthand for building text from a string literal. -/
def strL (s : String) : Str := s.data

/-- The Unicode character classes consulted by `clean_text`: regex
whitespace, Unicode letters, and Unicode punctuation.  They are kept
abstract because the Rust regex engine resolves them from the Unicode
character database. -/
structure CharClass where
  isWS : Char → Bool
  isL : Char → Bool
  isP : Char → Bool

/-- Step 1 of `clean_text` (src/main.rs line 95): the streaming behaviour
of replacing every maximal whitespace run by one ASCII space.  The
boolean argument records whether the previous character was whitespace,
in which case further whitespace of the same run emits nothing. -/
def collapseWSAux (ws : Char → Bool) : Bool → Str → Str
  | _, [] => []
  | prevWS, c :: rest =>
    if ws c then
      if prevWS then collapseWSAux ws true rest
      else ' ' :: collapseWSAux ws true rest
    else c :: collapseWSAux ws false rest

/-- Replace every maximal whitespace run by a single space, modelling
the regex replacement of step 1 of `clean_text`. -/
def collapseWS (ws : Char → Bool) (l : Str) : Str := collapseWSAux ws false l

/-- The seven literal characters removed by step 4 of `clean_text`
(src/main.rs line 104). -/
def specialSyms : Str := ['@', '#', '%', '&', '*', '(', ')']

/-- The character filter of step 2 of `clean_text` (src/main.rs line 98):
a character is kept iff it is an ASCII space, a letter, or punctuation. -/
def keepChar (C : CharClass) (c : Char) : Bool := c == ' ' || C.isL c || C.isP c

/-- Step 5 of `clean_text` (src/main.rs line 105): one left-to-right
pass replacing each non-overlapping occurrence of two consecutive
spaces by a single space, exactly as the Rust string replace does. -/
def collapseDouble : Str → Str
  | [] => []
  | [c] => [c]
  | c1 :: c2 :: rest =>
    if c1 == ' ' && c2 == ' ' then ' ' :: collapseDouble rest
    else c1 :: collapseDouble (c2 :: rest)

/-- Step 6 of `clean_text` (src/main.rs line 108): trim characters
satisfying the given whitespace predicate from both ends. -/
def trimEnds (ws : Char → Bool) (l : Str) : Str :=
  ((l.dropWhile ws).reverse.dropWhile ws).reverse

/-- The text normalizer `clean_text` (src/main.rs lines 90 to 109),
with its six steps in source order: collapse whitespace runs, keep only
space and letter and punctuation characters, map tabs to spaces, delete
the seven special symbols, collapse double spaces in one pass, and trim
the ends. -/
def clean_text (C : CharClass) (text : Str) : Str :=
  let spaced := collapseWS C.isWS text
  let cleaned := spaced.filter (keepChar C)
  let cleaned := cleaned.map (fun c => if c == '\t' then ' ' else c)
  let cleaned := cleaned.filter (fun c => !(specialSyms.contains c))
  let cleaned := collapseDouble cleaned
  trimEnds C.isWS cleaned

/-- A character the normalizer removes outright: whitespace (normalized
away and trimmed), a character outside the kept classes, or one of the
seven special symbols. -/
def removedBy (C : CharClass) (c : Char) : Bool :=
  C.isWS c || !(keepChar C c) || specialSyms.contains c

/-- No two consecutive spaces occur in the text. -/
def noDoubleSpace : Str → Bool
  | [] => true
  | [_] => true
  | c1 :: c2 :: rest => !(c1 == ' ' && c2 == ' ') && noDoubleSpace (c2 :: rest)

/-- The text contains whitespace only as single ASCII spaces: every
whitespace character is the space character, and no space is doubled. -/
def singleSpaced (C : CharClass) (x : Str) : Bool :=
  x.all (fun c => !(C.isWS c) || c == ' ') && noDoubleSpace x

/-- A concrete character class, correct for the ASCII range: whitespace
is space, tab, newline or carriage return; letters are the ASCII
letters; punctuation is a list of common ASCII punctuation characters.
It agrees with the Unicode classes of the Rust regexes on every ASCII
character it is applied to in the concrete instances below. -/
def asciiClass : CharClass where
  isWS c := c == ' ' || c == '\t' || c == '\n' || c == '\r'
  isL c := c.isAlpha
  isP c := ([',', '.', '!', '?', ';', ':', '@', '#', '%', '&', '*', '(', ')', '-'] : Str).contains c

/-- One row masking decision together with an explicit record of the
classifier invocations it performs (src/main.rs lines 241 to 245): a
null cell and a present empty cell short-circuit to the keep-empty
policy without consulting the detector; a present non-empty cell
invokes the detector once on its text and keeps the row iff the result
equals the target language exactly. -/
def maskCellT {Lang : Type} [DecidableEq Lang] (detect : Str → Option Lang)
    (target : Lang) (keepEmpty : Bool) : Option Str → Bool × List Str
  | none => (keepEmpty, [])
  | some t =>
    if t.isEmpty then (keepEmpty, [])
    else (decide (detect t = some target), [t])

/-- The keep/drop decision for one text cell. -/
def maskCell {Lang : Type} [DecidableEq Lang] (detect : Str → Option Lang)
    (target : Lang) (keepEmpty : Bool) (c : Option Str) : Bool :=
  (maskCellT detect target keepEmpty c).1

/-- The row mask of src/main.rs lines 239 to 246: one boolean per text
cell, in row order.  The parallel iterator of the Rust code gathers its
results back into row order, so a map models it. -/
def compute_mask {Lang : Type} [DecidableEq Lang] (detect : Str → Option Lang)
    (target : Lang) (keepEmpty : Bool) (cells : List (Option Str)) : List Bool :=
  cells.map (maskCell detect target keepEmpty)

/-- All classifier inputs consumed while computing the mask, in row
order. -/
def classifierCalls {Lang : Type} [DecidableEq Lang] (detect : Str → Option Lang)
    (target : Lang) (keepEmpty : Bool) (cells : List (Option Str)) : List Str :=
  (cells.map (fun c => (maskCellT detect target keepEmpty c).2)).flatten

/-- The text preprocessing of src/main.rs lines 226 to 237: when the
clean flag is set every present cell is normalized with the given
cleaning function, otherwise it is kept as is; a null cell stays null. -/
def processedCol (cleanFn : Str → Str) (cleanFlag : Bool)
    (textCol : List (Option Str)) : List (Option Str) :=
  textCol.map (fun opt => opt.map (fun s => if cleanFlag then cleanFn s else s))

/-- Filtering one column by the mask, modelling the row selection the
polars filter performs on every column (src/main.rs lines 249 to 250):
keep the values at the positions where the mask is true. -/
def applyMaskCol {α : Type} (mask : List Bool) (col : List α) : List α :=
  ((col.zip mask).filter (fun p => p.2)).map (fun p => p.1)

/-- Filtering a whole table: the mask is applied to every column. -/
def filterTable {α : Type} (mask : List Bool) (cols : List (Str × List α)) :
    List (Str × List α) :=
  cols.map (fun p => (p.1, applyMaskCol mask p.2))

/-- The run configuration relevant to the core pipeline: target
language, the keep-empty policy flag, and the clean flag. -/
structure Config (Lang : Type) where
  target : Lang
  keepEmpty : Bool
  clean : Bool

/-- The mask process_file computes for a given text column. -/
def maskOf {Lang : Type} [DecidableEq Lang] (cleanFn : Str → Str)
    (detect : Str → Option Lang) (cfg : Config Lang)
    (textCol : List (Option Str)) : List Bool :=
  compute_mask detect cfg.target cfg.keepEmpty (processedCol cleanFn cfg.clean textCol)

/-- The table transformation of process_file (src/main.rs lines 226 to
260): build the processed text column, compute the mask over it, filter
every column by the mask, and, when cleaning is enabled, replace the
text column of the filtered table by the mask-filtered processed
values (the with_column call replaces the column of the same name). -/
def processTable {Lang α : Type} [DecidableEq Lang] (cleanFn : Str → Str)
    (detect : Str → Option Lang) (cfg : Config Lang)
    (textCol : List (Option Str)) (others : List (Str × List α)) :
    List (Option Str) × List (Str × List α) :=
  let processed := processedCol cleanFn cfg.clean textCol
  let mask := compute_mask detect cfg.target cfg.keepEmpty processed
  let filteredText := applyMaskCol mask textCol
  let filteredOthers := filterTable mask others
  (if cfg.clean then applyMaskCol mask processed else filteredText, filteredOthers)

/-- The failure process_file reports when the output path is an
existing directory (src/main.rs lines 206 to 211). -/
inductive FileError
  | pathError
deriving DecidableEq

/-- File system effects of process_file on table data: reading the
input table and writing the output table. -/
inductive FsEvent
  | readInput
  | writeOutput
deriving DecidableEq

/-- process_file (src/main.rs lines 199 to 280) at the level of one
invocation: the guard on the output path runs first; only when it
passes is the input read, the table transformed, and the output
written.  The returned event list records the table reads and writes
that occurred, in order. -/
def process_file_model {Lang α : Type} [DecidableEq Lang] (cleanFn : Str → Str)
    (detect : Str → Option Lang) (cfg : Config Lang)
    (outExists outIsDir : Bool) (textCol : List (Option Str))
    (others : List (Str × List α)) :
    Except FileError (List (Option Str) × List (Str × List α)) × List FsEvent :=
  if outExists && outIsDir then (Except.error FileError.pathError, [])
  else (Except.ok (processTable cleanFn detect cfg textCol others),
        [FsEvent.readInput, FsEvent.writeOutput])

/-- An entry of the non-recursive input directory listing, carrying the
pieces of std path metadata process_directory consults: the file name,
the extension as the standard library computes it, and whether the
entry is a regular file. -/
structure DirEntry where
  name : Str
  ext : Option Str
  isFile : Bool

/-- ASCII lowercasing of one character, as used by the case-insensitive
extension comparison. -/
def toLowerAscii (c : Char) : Char :=
  if 'A' ≤ c && c ≤ 'Z' then Char.ofNat (c.toNat + 32) else c

/-- The Rust eq_ignore_ascii_case comparison on text. -/
def eqIgnoreAsciiCase (a b : Str) : Bool :=
  a.map toLowerAscii == b.map toLowerAscii

/-- The extension the directory scan looks for. -/
def parquetExt : Str := strL "parquet"

/-- The directory-scan filter of src/main.rs lines 162 to 176: keep an
entry iff it is a regular file whose extension compares equal to the
parquet extension ignoring ASCII case. -/
def entryMatches (e : DirEntry) : Bool :=
  e.isFile && (match e.ext with
    | some x => eqIgnoreAsciiCase x parquetExt
    | none => false)

/-- The names of the matching entries, in listing order. -/
def matchingNames (entries : List DirEntry) : List Str :=
  entries.filterMap (fun e => if entryMatches e then some e.name else none)

/-- Lexicographic order on text, modelling the path order used by the
sort of the collected file list. -/
def lexLe : Str → Str → Bool
  | [], _ => true
  | _ :: _, [] => false
  | a :: as, b :: bs => if a < b then true else if b < a then false else lexLe as bs

/-- The failure process_directory reports when no matching file is
found (src/main.rs lines 181 to 186). -/
inductive BatchError
  | emptyInput
deriving DecidableEq

/-- Joining the output directory with a file name. -/
def outputPathFor (outDir name : Str) : Str := outDir ++ '/' :: name

/-- The batch plan of process_directory (src/main.rs lines 160 to 194):
collect the matching file names, sort them, fail with the empty-input
error when none matched, and otherwise pair each input file name with
its output path under the output directory. -/
def process_directory_plan (outDir : Str) (entries : List DirEntry) :
    Except BatchError (List (Str × Str)) :=
  let files := (matchingNames entries).mergeSort lexLe
  if files.isEmpty then Except.error BatchError.emptyInput
  else Except.ok (files.map (fun n => (n, outputPathFor outDir n)))

/-- The indices, in increasing order, at which the mask is true.  Used
to state that filtering selects exactly the surviving rows in their
original relative order. -/
def trueIdx (mask : List Bool) : List Nat :=
  (List.range mask.length).filter (fun i => mask.getD i false)

/-- Spec formulation of normalization step 1: collapse each maximal run
of whitespace characters into a single ASCII space, dropping the whole
run at once. -/
def collapseRuns (ws : Char → Bool) : Str → Str
  | [] => []
  | c :: rest =>
    if ws c then ' ' :: collapseRuns ws (rest.dropWhile ws)
    else c :: collapseRuns ws rest
termination_by l => l.length
decreasing_by
  · simp only [List.length_cons]
    exact Nat.lt_succ_of_le (List.dropWhile_sublist ws).length_le
  · simp

/-- Spec formulation of a single non-recursive replacement pass: each
non-overlapping occurrence of the pattern, scanning left to right, is
replaced once; scanning resumes after the replacement. -/
def replaceAll (pat rep : Str) : Str → Str
  | [] => []
  | c :: rest =>
    if h : pat ≠ [] ∧ pat.isPrefixOf (c :: rest) = true then
      rep ++ replaceAll pat rep ((c :: rest).drop pat.length)
    else c :: replaceAll pat rep rest
termination_by l => l.length
decreasing_by
  · simp only [List.length_drop]
    exact Nat.sub_lt (by simp) (List.length_pos.mpr h.1)
  · simp

/-- The six-step reference pipeline exactly as the spec words it:
collapse maximal whitespace runs to one space; delete every character
that is not an ASCII space, a letter, or punctuation; replace remaining
tabs with spaces; delete the seven literal special characters; collapse
literal double-space sequences in a single non-recursive pass; trim
leading and trailing spaces. -/
def normalize_spec (C : CharClass) (x : Str) : Str :=
  let s1 := collapseRuns C.isWS x
  let s2 := s1.filter (keepChar C)
  let s3 := s2.map (fun c => if c == '\t' then ' ' else c)
  let s4 := s3.filter (fun c => !(specialSyms.contains c))
  let s5 := replaceAll [' ', ' '] [' '] s4
  trimEnds (fun c => c == ' ') s5

/-- A concrete detector for witnesses: language 1 for the text aa,
undetermined otherwise. -/
def exDetect : Str → Option Nat := fun t => if t = strL "aa" then some 1 else none

/-- Concrete text cells for witnesses: a null cell, an empty cell, a
matching cell and a non-matching cell. -/
def exCells : List (Option Str) := [none, some [], some (strL "aa"), some (strL "bb")]

/-- A concrete configuration with cleaning enabled. -/
def exCfg : Config Nat := { target := 1, keepEmpty := false, clean := true }

/-- A concrete extra column for witnesses. -/
def exOthers : List (Str × List Nat) := [(strL "id", [10, 11, 12, 13])]

/-- The concrete counterexample input for idempotence: single spaces
only, but the digits between them are deleted by normalization, which
creates a triple-space run that the single collapse pass leaves as a
double space. -/
def exC6 : Str := strL "a 1 2 b"

/-- A concrete input every character of which is removed by the
normalizer. -/
def exRemoved : Str := strL "1@ "

/-- A concrete directory listing: one matching file with mixed-case
extension, one file with a different extension, one entry that is not a
regular file, and one file without an extension. -/
def exEntries : List DirEntry :=
  [{ name := strL "b.Parquet", ext := some (strL "Parquet"), isFile := true },
   { name := strL "c.txt", ext := some (strL "txt"), isFile := true },
   { name := strL "d.parquet", ext := some (strL "parquet"), isFile := false },
   { name := strL "README", ext := none, isFile := true }]

/-- The text of a present non-empty cell, and nothing for a null or
empty cell.  Used to state which texts reach the classifier. -/
def presentText : Option Str → Option Str
  | none => none
  | some t => if t.isEmpty then none else some t

/-- Whether a cell is present and non-empty. -/
def isPresentNonEmpty : Option Str → Bool
  | none => false
  | some t => !t.isEmpty

/-- A concrete text column whose only cell is present, non-empty, and
normalizes to the empty string. -/
def exDigits : List (Option Str) := [some (strL "123")]

/-- The batch plan expected for the concrete directory listing: the
single matching file, paired with its output path. -/
def exPlanOkList : List (Str × Str) :=
  [(strL "b.Parquet", outputPathFor (strL "out") (strL "b.Parquet"))]

/-! ## Helper lemmas about mask application -/

theorem applyMaskCol_nil {α : Type} (mask : List Bool) :
    applyMaskCol mask ([] : List α) = [] := by
  simp [applyMaskCol]

theorem applyMaskCol_cons {α : Type} (b : Bool) (mask : List Bool) (c : α) (col : List α) :
    applyMaskCol (b :: mask) (c :: col) =
      if b then c :: applyMaskCol mask col else applyMaskCol mask col := by
  cases b <;> simp [applyMaskCol]

theorem trueIdx_cons (b : Bool) (mask : List Bool) :
    trueIdx (b :: mask) = (if b then [0] else []) ++ (trueIdx mask).map Nat.succ := by
  cases b <;>
    simp [trueIdx, List.range_succ_eq_map, List.filter_cons, List.filter_map,
      Function.comp_def]

theorem applyMaskCol_eq_trueIdx {α : Type} (mask : List Bool) (col : List α) :
    applyMaskCol mask col = (trueIdx mask).filterMap (fun i => col[i]?) := by
  induction mask generalizing col with
  | nil => simp [applyMaskCol, trueIdx]
  | cons b mask ih =>
    cases col with
    | nil => simp [applyMaskCol]
    | cons c col =>
      rw [trueIdx_cons]
      cases b <;>
        simp [applyMaskCol_cons, List.filterMap_map, Function.comp_def, ih]

theorem applyMaskCol_length {α : Type} (mask : List Bool) (col : List α)
    (h : mask.length = col.length) :
    (applyMaskCol mask col).length = mask.count true := by
  induction mask generalizing col with
  | nil => simp [applyMaskCol]
  | cons b mask ih =>
    cases col with
    | nil => simp at h
    | cons c col =>
      simp only [List.length_cons] at h
      have h2 : mask.length = col.length := Nat.succ_injective h
      cases b <;> simp [applyMaskCol_cons, ih col h2, List.count_cons]

theorem applyMaskCol_sublist {α : Type} (mask : List Bool) (col : List α) :
    (applyMaskCol mask col).Sublist col := by
  induction mask generalizing col with
  | nil => simp [applyMaskCol]
  | cons b mask ih =>
    cases col with
    | nil => simp [applyMaskCol]
    | cons c col =>
      rw [applyMaskCol_cons]
      cases b with
      | false =>
        simp only [if_neg Bool.false_ne_true]
        exact (ih col).cons c
      | true =>
        simp only [if_pos rfl]
        exact (ih col).cons₂ c

/-! ## Claim C1 -/

/-- Claim C1: the computed mask has one boolean entry per cell; an
absent cell is kept iff the keep-empty policy is enabled, a present
empty cell is kept iff the policy is enabled, and a present non-empty
cell is kept iff the detected language equals the target exactly; an
undetermined detection result never matches any target language. -/
theorem compute_mask_policy {Lang : Type} [DecidableEq Lang]
    (detect : Str → Option Lang) (target : Lang) (keepEmpty : Bool)
    (cells : List (Option Str)) :
    (compute_mask detect target keepEmpty cells).length = cells.length ∧
    (∀ i : Nat, cells[i]? = some none →
      (compute_mask detect target keepEmpty cells)[i]? = some keepEmpty) ∧
    (∀ (i : Nat) (t : Str), cells[i]? = some (some t) → t = [] →
      (compute_mask detect target keepEmpty cells)[i]? = some keepEmpty) ∧
    (∀ (i : Nat) (t : Str), cells[i]? = some (some t) → t ≠ [] →
      (compute_mask detect target keepEmpty cells)[i]? =
        some (decide (detect t = some target))) ∧
    (∀ (i : Nat) (t : Str), cells[i]? = some (some t) → t ≠ [] → detect t = none →
      (compute_mask detect target keepEmpty cells)[i]? = some false) := by
  refine ⟨by simp [compute_mask], ?_, ?_, ?_, ?_⟩
  · intro i h
    simp [compute_mask, List.getElem?_map, h, maskCell, maskCellT]
  · intro i t h ht
    subst ht
    simp [compute_mask, List.getElem?_map, h, maskCell, maskCellT]
  · intro i t h ht
    simp [compute_mask, List.getElem?_map, h, maskCell, maskCellT,
      List.isEmpty_iff, ht]
  · intro i t h ht hu
    simp [compute_mask, List.getElem?_map, h, maskCell, maskCellT,
      List.isEmpty_iff, ht, hu]

/-- Witness for claim C1 at concrete inputs: the null cell and the
empty cell follow the keep-empty policy, the matching cell is kept, and
the undetermined cell is dropped. -/
theorem compute_mask_policy_witness :
    (compute_mask exDetect 1 false exCells)[0]? = some false ∧
    (compute_mask exDetect 1 false exCells)[1]? = some false ∧
    (compute_mask exDetect 1 false exCells)[2]? = some true ∧
    (compute_mask exDetect 1 false exCells)[3]? = some false := by
  have h := compute_mask_policy exDetect 1 false exCells
  refine ⟨h.2.1 0 (by decide), h.2.2.1 1 [] (by decide) rfl, ?_, ?_⟩
  · have h3 := h.2.2.2.1 2 (strL "aa") (by decide) (by decide)
    rw [h3]; decide
  · exact h.2.2.2.2 3 (strL "bb") (by decide) (by decide) (by decide)

/-! ## Claim C2 -/

/-- Claim C2: applying a mask of matching length to a table keeps, in
every column, exactly the values at the positions where the mask is
true, in their original relative order (the result is a sublist of the
column, selected by the increasing list of true indices), and the
resulting height equals the number of true entries of the mask. -/
theorem filterTable_spec {α : Type} (mask : List Bool) (cols : List (Str × List α))
    (h : ∀ p ∈ cols, p.2.length = mask.length) :
    filterTable mask cols =
      cols.map (fun p => (p.1, (trueIdx mask).filterMap (fun i => p.2[i]?))) ∧
    (∀ p ∈ filterTable mask cols, p.2.length = mask.count true) ∧
    (∀ p ∈ cols, (applyMaskCol mask p.2).Sublist p.2) := by
  refine ⟨?_, ?_, ?_⟩
  · simp [filterTable, applyMaskCol_eq_trueIdx]
  · intro p hp
    simp only [filterTable, List.mem_map] at hp
    obtain ⟨q, hq, rfl⟩ := hp
    exact applyMaskCol_length mask q.2 (h q hq).symm
  · intro p _
    exact applyMaskCol_sublist mask p.2

/-- Witness for claim C2 at a concrete mask and table. -/
theorem filterTable_spec_witness :
    filterTable [true, false, true, true] exOthers =
      exOthers.map (fun p =>
        (p.1, (trueIdx [true, false, true, true]).filterMap (fun i => p.2[i]?))) ∧
    (∀ p ∈ filterTable [true, false, true, true] exOthers,
      p.2.length = ([true, false, true, true] : List Bool).count true) ∧
    (∀ p ∈ exOthers,
      (applyMaskCol [true, false, true, true] p.2).Sublist p.2) :=
  filterTable_spec [true, false, true, true] exOthers (by decide)

/-! ## Claims C4, C5, C7, C9, C10 -/

/-- Claim C7: every column other than the target text column is carried
into the output with its name unchanged and its values for the
surviving rows copied unchanged, selected by the true indices of the
mask with no transformation, for every configuration and in particular
whether or not the clean flag is enabled. -/
theorem processTable_frame {Lang α : Type} [DecidableEq Lang] (cleanFn : Str → Str)
    (detect : Str → Option Lang) (cfg : Config Lang)
    (textCol : List (Option Str)) (others : List (Str × List α)) :
    (processTable cleanFn detect cfg textCol others).2 =
      others.map (fun p =>
        (p.1, (trueIdx (maskOf cleanFn detect cfg textCol)).filterMap
          (fun i => p.2[i]?))) := by
  simp [processTable, filterTable, maskOf, applyMaskCol_eq_trueIdx]

/-- Claim C4: when cleaning is enabled, the output text column holds
the already-normalized string of each surviving row (a single
application of the cleaning function to the raw cell), aligned by the
same row selection as the mask; null cells stay null and are never
normalized. -/
theorem processTable_cleanText {Lang α : Type} [DecidableEq Lang] (cleanFn : Str → Str)
    (detect : Str → Option Lang) (cfg : Config Lang)
    (textCol : List (Option Str)) (others : List (Str × List α))
    (hclean : cfg.clean = true) :
    (processTable cleanFn detect cfg textCol others).1 =
      (trueIdx (maskOf cleanFn detect cfg textCol)).filterMap
        (fun i => (textCol[i]?).map (Option.map cleanFn)) ∧
    (∀ i : Nat, textCol[i]? = some none →
      (processedCol cleanFn cfg.clean textCol)[i]? = some none) := by
  constructor
  · simp [processTable, maskOf, processedCol, hclean, applyMaskCol_eq_trueIdx,
      List.getElem?_map]
  · intro i h
    simp [processedCol, List.getElem?_map, h]

/-- Witness for claim C4 at concrete inputs. -/
theorem processTable_cleanText_witness :
    (processTable (clean_text asciiClass) exDetect exCfg exCells exOthers).1 =
      (trueIdx (maskOf (clean_text asciiClass) exDetect exCfg exCells)).filterMap
        (fun i => (exCells[i]?).map (Option.map (clean_text asciiClass))) ∧
    (processedCol (clean_text asciiClass) exCfg.clean exCells)[0]? = some none := by
  have h := processTable_cleanText (clean_text asciiClass) exDetect exCfg exCells
    exOthers rfl
  exact ⟨h.1, h.2 0 (by decide)⟩

theorem classifierCalls_eq {Lang : Type} [DecidableEq Lang]
    (detect : Str → Option Lang) (target : Lang) (keepEmpty : Bool)
    (cells : List (Option Str)) :
    classifierCalls detect target keepEmpty cells = cells.filterMap presentText := by
  induction cells with
  | nil => simp [classifierCalls]
  | cons c cells ih =>
    simp only [classifierCalls, List.map_cons, List.flatten_cons] at ih ⊢
    rw [ih]
    cases c with
    | none => simp [maskCellT, presentText]
    | some t =>
      by_cases ht : t.isEmpty <;>
        simp [maskCellT, presentText, ht]

theorem filterMap_presentText_length (cells : List (Option Str)) :
    (cells.filterMap presentText).length = cells.countP isPresentNonEmpty := by
  induction cells with
  | nil => simp
  | cons c cells ih =>
    cases c with
    | none => simp [presentText, isPresentNonEmpty, List.countP_cons, ih]
    | some t =>
      by_cases ht : t.isEmpty <;>
        simp [presentText, isPresentNonEmpty, List.countP_cons, ht, ih]

/-- Claim C5: masking never invokes the classifier for null or
empty-string cells: the classifier inputs are exactly the present
non-empty processed texts in row order, their number equals the number
of present non-empty cells, and each invocation receives the
post-normalization text when cleaning is enabled and the raw text
otherwise. -/
theorem classifierCalls_spec {Lang : Type} [DecidableEq Lang] (cleanFn : Str → Str)
    (detect : Str → Option Lang) (cfg : Config Lang) (textCol : List (Option Str)) :
    classifierCalls detect cfg.target cfg.keepEmpty
        (processedCol cleanFn cfg.clean textCol) =
      (processedCol cleanFn cfg.clean textCol).filterMap presentText ∧
    (classifierCalls detect cfg.target cfg.keepEmpty
        (processedCol cleanFn cfg.clean textCol)).length =
      (processedCol cleanFn cfg.clean textCol).countP isPresentNonEmpty ∧
    processedCol cleanFn cfg.clean textCol =
      textCol.map (fun opt => opt.map
        (fun s => if cfg.clean then cleanFn s else s)) := by
  refine ⟨classifierCalls_eq _ _ _ _, ?_, rfl⟩
  rw [classifierCalls_eq]
  exact filterMap_presentText_length _

/-- Claim C10: when cleaning is enabled, a present non-empty raw cell
whose normalized text is empty falls under the keep-empty policy, and
the classifier is not invoked for it: the emptiness test is applied to
the post-normalization text. -/
theorem mask_empty_after_clean {Lang : Type} [DecidableEq Lang] (cleanFn : Str → Str)
    (detect : Str → Option Lang) (cfg : Config Lang) (textCol : List (Option Str))
    (i : Nat) (s : Str) (hclean : cfg.clean = true)
    (hcell : textCol[i]? = some (some s)) (hne : s ≠ []) (hcl : cleanFn s = []) :
    (maskOf cleanFn detect cfg textCol)[i]? = some cfg.keepEmpty ∧
    ((processedCol cleanFn cfg.clean textCol).map
      (fun c => (maskCellT detect cfg.target cfg.keepEmpty c).2))[i]? = some [] := by
  have hproc : (processedCol cleanFn cfg.clean textCol)[i]? = some (some []) := by
    simp [processedCol, List.getElem?_map, hcell, hclean, hcl]
  constructor
  · simp [maskOf, compute_mask, List.getElem?_map, hproc, maskCell, maskCellT]
  · simp [List.getElem?_map, hproc, maskCellT]

/-- Witness for claim C10: the text 123 is present and non-empty, its
normalization is empty, the row falls under the keep-empty policy (here
disabled, so it is dropped), and no classifier call is recorded. -/
theorem mask_empty_after_clean_witness :
    (maskOf (clean_text asciiClass) exDetect exCfg exDigits)[0]? =
      some exCfg.keepEmpty ∧
    ((processedCol (clean_text asciiClass) exCfg.clean exDigits).map
      (fun c => (maskCellT exDetect exCfg.target exCfg.keepEmpty c).2))[0]? =
        some [] :=
  mask_empty_after_clean (clean_text asciiClass) exDetect exCfg exDigits 0
    (strL "123") rfl (by decide) (by decide) (by decide)

/-- Claim C9: in single-file mode, when the output path already exists
as a directory, processing fails with the path error, no read or write
of table data happens, and no output is produced. -/
theorem process_file_pathError {Lang α : Type} [DecidableEq Lang] (cleanFn : Str → Str)
    (detect : Str → Option Lang) (cfg : Config Lang)
    (outExists outIsDir : Bool) (textCol : List (Option Str))
    (others : List (Str × List α))
    (h1 : outExists = true) (h2 : outIsDir = true) :
    process_file_model cleanFn detect cfg outExists outIsDir textCol others =
      (Except.error FileError.pathError, ([] : List FsEvent)) := by
  subst h1; subst h2
  simp [process_file_model]

/-- Witness for claim C9 at concrete inputs. -/
theorem process_file_pathError_witness :
    process_file_model (clean_text asciiClass) exDetect exCfg true true exCells
        exOthers =
      (Except.error FileError.pathError, ([] : List FsEvent)) :=
  process_file_pathError (clean_text asciiClass) exDetect exCfg true true exCells
    exOthers rfl rfl

/-! ## Claim C8 -/

theorem lexLe_trans : ∀ a b c : Str, lexLe a b = true → lexLe b c = true →
    lexLe a c = true := by
  intro a
  induction a with
  | nil => intro b c h1 h2; rfl
  | cons x xs ih =>
    intro b c h1 h2
    cases b with
    | nil => simp [lexLe] at h1
    | cons y ys =>
      cases c with
      | nil => simp [lexLe] at h2
      | cons z zs =>
        simp only [lexLe] at h1 h2 ⊢
        by_cases hxy : x < y
        · by_cases hyz : y < z
          · simp [lt_trans hxy hyz]
          · by_cases hzy : z < y
            · simp [hyz, hzy] at h2
            · have hy : y = z := le_antisymm (not_lt.mp hzy) (not_lt.mp hyz)
              subst hy
              simp [hxy]
        · by_cases hyx : y < x
          · simp [hxy, hyx] at h1
          · have hx : x = y := le_antisymm (not_lt.mp hyx) (not_lt.mp hxy)
            subst hx
            simp only [lt_self_iff_false, if_false] at h1
            by_cases hyz : x < z
            · simp [hyz]
            · by_cases hzy : z < x
              · simp [hyz, hzy] at h2
              · have hz : x = z := le_antisymm (not_lt.mp hzy) (not_lt.mp hyz)
                subst hz
                simp only [lt_self_iff_false, if_false] at h2 ⊢
                exact ih ys zs h1 h2

theorem lexLe_total : ∀ a b : Str, (lexLe a b || lexLe b a) = true := by
  intro a
  induction a with
  | nil => intro b; rfl
  | cons x xs ih =>
    intro b
    cases b with
    | nil => rfl
    | cons y ys =>
      rcases lt_trichotomy x y with h | h | h
      · simp [lexLe, h]
      · subst h
        have h2 := ih ys
        simp only [lexLe, lt_self_iff_false, if_false]
        exact h2
      · simp [lexLe, h, lt_asymm h]

/-- Claim C8: the directory scan keeps exactly the regular files whose
extension matches the parquet extension ignoring ASCII case; the run
fails with the empty-input error iff no file matches; otherwise the
matching files are processed in lexicographically sorted order, and
each output keeps the name of its input file, placed under the output
directory. -/
theorem process_directory_spec (outDir : Str) (entries : List DirEntry) :
    (process_directory_plan outDir entries = Except.error BatchError.emptyInput ↔
      matchingNames entries = []) ∧
    (∀ l, process_directory_plan outDir entries = Except.ok l →
      (l.map Prod.fst).Perm (matchingNames entries) ∧
      (l.map Prod.fst).Pairwise (fun a b => lexLe a b = true) ∧
      l ≠ [] ∧
      (∀ p ∈ l, p.2 = outputPathFor outDir p.1)) := by
  have hperm := List.mergeSort_perm (matchingNames entries) lexLe
  by_cases hW : ((matchingNames entries).mergeSort lexLe).isEmpty = true
  · have hfiles : (matchingNames entries).mergeSort lexLe = [] := by
      simpa [List.isEmpty_iff] using hW
    have hmn : matchingNames entries = [] := by
      rw [hfiles] at hperm
      exact (List.perm_nil.mp hperm.symm)
    constructor
    · simp [process_directory_plan, hfiles, hmn]
    · intro l hl
      simp [process_directory_plan, hfiles] at hl
  · have hne : (matchingNames entries).mergeSort lexLe ≠ [] := by
      simpa [List.isEmpty_iff] using hW
    have hWf : ((matchingNames entries).mergeSort lexLe).isEmpty = false := by
      simpa using hW
    constructor
    · constructor
      · intro h
        exfalso
        simp [process_directory_plan, hWf] at h
      · intro h
        exfalso
        apply hne
        rw [h]
        simp
    · intro l hl
      simp only [process_directory_plan, hWf, Bool.false_eq_true, if_false,
        Except.ok.injEq] at hl
      subst hl
      refine ⟨?_, ?_, ?_, ?_⟩
      · simpa [List.map_map, Function.comp_def] using hperm
      · rw [List.pairwise_map, List.pairwise_map]
        simpa using
          List.sorted_mergeSort lexLe_trans lexLe_total (matchingNames entries)
      · simp only [ne_eq, List.map_eq_nil_iff]
        exact hne
      · intro p hp
        simp only [List.mem_map] at hp
        obtain ⟨n, _, rfl⟩ := hp
        rfl

/-- Witness for claim C8: on the concrete listing exactly one entry
matches (the regular file with mixed-case parquet extension), and the
plan pairs it with its output path. -/
theorem process_directory_spec_witness :
    (exPlanOkList.map Prod.fst).Perm (matchingNames exEntries) ∧
    (exPlanOkList.map Prod.fst).Pairwise (fun a b => lexLe a b = true) ∧
    exPlanOkList ≠ [] ∧
    (∀ p ∈ exPlanOkList, p.2 = outputPathFor (strL "out") p.1) := by
  have hmn : matchingNames exEntries = [strL "b.Parquet"] := by decide
  have hl : process_directory_plan (strL "out") exEntries =
      Except.ok exPlanOkList := by
    simp [process_directory_plan, hmn, List.mergeSort, exPlanOkList]
  exact (process_directory_spec (strL "out") exEntries).2 exPlanOkList hl

/-! ## Helper lemmas for the normalizer -/

theorem dropWhile_head_false {p : Char → Bool} {l : Str} {c : Char} {rest : Str}
    (h : l.dropWhile p = c :: rest) : p c = false := by
  induction l with
  | nil => simp at h
  | cons d l ih =>
    rw [List.dropWhile_cons] at h
    by_cases hd : p d
    · rw [if_pos hd] at h
      exact ih h
    · rw [if_neg hd] at h
      cases h
      simpa using hd

theorem dropWhile_idem (p : Char → Bool) (l : Str) :
    (l.dropWhile p).dropWhile p = l.dropWhile p := by
  cases h : l.dropWhile p with
  | nil => rfl
  | cons c rest =>
    rw [List.dropWhile_cons, if_neg]
    simp [dropWhile_head_false h]

theorem dropWhile_congr {p q : Char → Bool} {l : Str} (h : ∀ c ∈ l, p c = q c) :
    l.dropWhile p = l.dropWhile q := by
  induction l with
  | nil => rfl
  | cons c l ih =>
    rw [List.dropWhile_cons, List.dropWhile_cons, h c (by simp)]
    by_cases hc : q c
    · rw [if_pos hc, if_pos hc]
      exact ih (fun d hd => h d (by simp [hd]))
    · rw [if_neg hc, if_neg hc]

theorem trimEnds_congr {p q : Char → Bool} {l : Str} (h : ∀ c ∈ l, p c = q c) :
    trimEnds p l = trimEnds q l := by
  unfold trimEnds
  rw [dropWhile_congr h]
  congr 1
  apply dropWhile_congr
  intro c hc
  apply h
  rw [List.mem_reverse] at hc
  exact (List.dropWhile_sublist q).mem hc

theorem mem_trimEnds {ws : Char → Bool} {l : Str} {c : Char}
    (h : c ∈ trimEnds ws l) : c ∈ l := by
  unfold trimEnds at h
  rw [List.mem_reverse] at h
  have h2 := (List.dropWhile_sublist ws).mem h
  rw [List.mem_reverse] at h2
  exact (List.dropWhile_sublist ws).mem h2

theorem trimEnds_idem (ws : Char → Bool) (l : Str) :
    trimEnds ws (trimEnds ws l) = trimEnds ws l := by
  unfold trimEnds
  cases hv : List.dropWhile ws (List.dropWhile ws l).reverse with
  | nil => simp [hv]
  | cons d v2 =>
    obtain ⟨e, t2, ht⟩ : ∃ e t2, (d :: v2).reverse = e :: t2 := by
      cases h2 : (d :: v2).reverse with
      | nil => exact absurd (congrArg List.length h2) (by simp)
      | cons e t2 => exact ⟨e, t2, rfl⟩
    have hu : List.dropWhile ws l =
        e :: (t2 ++ (List.takeWhile ws (List.dropWhile ws l).reverse).reverse) := by
      have h3 := congrArg List.reverse
        (List.takeWhile_append_dropWhile ws (List.dropWhile ws l).reverse)
      rw [List.reverse_append, hv, ht, List.reverse_reverse, List.cons_append] at h3
      exact h3.symm
    have he : ws e = false := dropWhile_head_false hu
    rw [ht]
    rw [List.dropWhile_cons]
    rw [if_neg (by simp [he])]
    rw [← ht]
    rw [List.reverse_reverse]
    rw [← hv]
    rw [dropWhile_idem]

theorem noDoubleSpace_tail {c : Char} {l : Str} (h : noDoubleSpace (c :: l) = true) :
    noDoubleSpace l = true := by
  cases l with
  | nil => rfl
  | cons d rest =>
    simp only [noDoubleSpace, Bool.and_eq_true] at h
    exact h.2

theorem noDoubleSpace_of_append_right {a b : Str}
    (h : noDoubleSpace (a ++ b) = true) : noDoubleSpace b = true := by
  induction a with
  | nil => exact h
  | cons c a ih =>
    apply ih
    apply noDoubleSpace_tail (c := c)
    simpa using h

theorem noDoubleSpace_of_append_left {a b : Str}
    (h : noDoubleSpace (a ++ b) = true) : noDoubleSpace a = true := by
  induction a with
  | nil => rfl
  | cons c a ih =>
    cases a with
    | nil => rfl
    | cons d a2 =>
      simp only [List.cons_append, noDoubleSpace, Bool.and_eq_true] at h ⊢
      exact ⟨h.1, ih h.2⟩

theorem collapseWSAux_cons (ws : Char → Bool) (b : Bool) (c : Char) (rest : Str) :
    collapseWSAux ws b (c :: rest) =
      if ws c then
        (if b then collapseWSAux ws true rest else ' ' :: collapseWSAux ws true rest)
      else c :: collapseWSAux ws false rest := rfl

theorem collapseWSAux_true_eq (ws : Char → Bool) : ∀ l : Str,
    collapseWSAux ws true l = collapseWSAux ws false (l.dropWhile ws) := by
  intro l
  induction l with
  | nil => rfl
  | cons c rest ih =>
    by_cases hc : ws c = true <;>
      simp [collapseWSAux_cons, List.dropWhile_cons, hc, ih]

theorem collapseWS_eq_collapseRuns (ws : Char → Bool) (l : Str) :
    collapseWS ws l = collapseRuns ws l := by
  induction l using collapseRuns.induct ws with
  | case1 =>
    unfold collapseWS
    rw [collapseRuns]
    rfl
  | case2 c rest hc ih =>
    unfold collapseWS at ih ⊢
    rw [collapseRuns]
    rw [if_pos hc, collapseWSAux_cons, if_pos hc, if_neg (by simp),
      collapseWSAux_true_eq, ih]
  | case3 c rest hc ih =>
    unfold collapseWS at ih ⊢
    rw [collapseRuns]
    rw [if_neg hc, collapseWSAux_cons, if_neg hc, ih]

theorem mem_collapseWSAux {ws : Char → Bool} {c : Char} :
    ∀ {b : Bool} {l : Str}, c ∈ collapseWSAux ws b l →
      c = ' ' ∨ (c ∈ l ∧ ws c = false) := by
  intro b l
  induction l generalizing b with
  | nil =>
    intro h
    simp [collapseWSAux] at h
  | cons d rest ih =>
    intro h
    rw [collapseWSAux_cons] at h
    by_cases hd : ws d = true
    · rw [if_pos hd] at h
      cases b with
      | true =>
        rw [if_pos rfl] at h
        rcases ih h with h3 | ⟨h4, h5⟩
        · exact Or.inl h3
        · exact Or.inr ⟨by simp [h4], h5⟩
      | false =>
        rw [if_neg (by simp)] at h
        rcases List.mem_cons.mp h with rfl | h2
        · exact Or.inl rfl
        · rcases ih h2 with h3 | ⟨h4, h5⟩
          · exact Or.inl h3
          · exact Or.inr ⟨by simp [h4], h5⟩
    · rw [if_neg hd] at h
      rcases List.mem_cons.mp h with rfl | h2
      · exact Or.inr ⟨by simp, by simpa using hd⟩
      · rcases ih h2 with h3 | ⟨h4, h5⟩
        · exact Or.inl h3
        · exact Or.inr ⟨by simp [h4], h5⟩

theorem collapseDouble_cons2 (c1 c2 : Char) (rest : Str) :
    collapseDouble (c1 :: c2 :: rest) =
      if c1 == ' ' && c2 == ' ' then ' ' :: collapseDouble rest
      else c1 :: collapseDouble (c2 :: rest) := rfl

theorem mem_collapseDouble : ∀ {l : Str} {c : Char}, c ∈ collapseDouble l → c ∈ l := by
  intro l
  induction l using collapseDouble.induct with
  | case1 =>
    intro c h
    simpa [collapseDouble] using h
  | case2 d =>
    intro c h
    simpa [collapseDouble] using h
  | case3 c1 c2 rest hsp ih =>
    intro c h
    rw [collapseDouble_cons2, if_pos hsp] at h
    rcases List.mem_cons.mp h with rfl | h2
    · simp only [Bool.and_eq_true, beq_iff_eq] at hsp
      simp [hsp.1]
    · simp [ih h2]
  | case4 c1 c2 rest hsp ih =>
    intro c h
    rw [collapseDouble_cons2, if_neg hsp] at h
    rcases List.mem_cons.mp h with rfl | h2
    · simp
    · exact List.mem_cons_of_mem c1 (ih h2)

theorem collapseDouble_id : ∀ l : Str, noDoubleSpace l = true → collapseDouble l = l := by
  intro l
  induction l using collapseDouble.induct with
  | case1 => intro h; rfl
  | case2 d => intro h; rfl
  | case3 c1 c2 rest hsp ih =>
    intro h
    simp [noDoubleSpace, hsp] at h
  | case4 c1 c2 rest hsp ih =>
    intro h
    simp only [noDoubleSpace, Bool.and_eq_true] at h
    rw [collapseDouble_cons2, if_neg hsp, ih h.2]

theorem collapseDouble_eq_replaceAll : ∀ l : Str,
    collapseDouble l = replaceAll [' ', ' '] [' '] l := by
  intro l
  induction l using collapseDouble.induct with
  | case1 =>
    rw [replaceAll]
    simp [collapseDouble]
  | case2 d =>
    rw [replaceAll]
    rw [dif_neg (by simp [List.isPrefixOf])]
    rw [replaceAll]
    rfl
  | case3 c1 c2 rest hsp ih =>
    rw [collapseDouble_cons2, if_pos hsp]
    simp only [Bool.and_eq_true, beq_iff_eq] at hsp
    obtain ⟨rfl, rfl⟩ := hsp
    rw [replaceAll]
    rw [dif_pos ⟨by simp, by simp [List.isPrefixOf]⟩]
    simp [ih]
  | case4 c1 c2 rest hsp ih =>
    rw [collapseDouble_cons2, if_neg hsp]
    rw [replaceAll]
    rw [dif_neg ?_]
    · rw [ih]
    · intro hcond
      apply hsp
      have h2 := hcond.2
      simp only [List.isPrefixOf, Bool.and_eq_true] at h2
      simp only [Bool.and_eq_true, beq_iff_eq]
      exact ⟨(beq_iff_eq.mp h2.1).symm, (beq_iff_eq.mp h2.2.1).symm⟩

theorem trimEnds_eq_nil {ws : Char → Bool} {l : Str} (h : ∀ c ∈ l, ws c = true) :
    trimEnds ws l = [] := by
  unfold trimEnds
  rw [List.dropWhile_eq_nil_iff.mpr h]
  simp

theorem ws_eq_space_of_keep (C : CharClass) (hws : C.isWS ' ' = true)
    (hdisj : ∀ c, C.isWS c = true → C.isL c = false ∧ C.isP c = false)
    {c : Char} (h : keepChar C c = true) : C.isWS c = (c == ' ') := by
  by_cases hc : c = ' '
  · subst hc
    simp [hws]
  · have hc2 : (c == ' ') = false := by simp [hc]
    rw [hc2]
    by_cases hw : C.isWS c = true
    · obtain ⟨h1, h2⟩ := hdisj c hw
      simp [keepChar, h1, h2, hc2] at h
    · simpa using hw

theorem clean_text_eq_normalize_spec (C : CharClass) (hws : C.isWS ' ' = true)
    (hdisj : ∀ c, C.isWS c = true → C.isL c = false ∧ C.isP c = false)
    (x : Str) : clean_text C x = normalize_spec C x := by
  simp only [clean_text, normalize_spec]
  rw [collapseWS_eq_collapseRuns, collapseDouble_eq_replaceAll]
  apply trimEnds_congr
  intro c hc
  rw [← collapseDouble_eq_replaceAll] at hc
  obtain ⟨hmem3, _⟩ := List.mem_filter.mp (mem_collapseDouble hc)
  rw [List.mem_map] at hmem3
  obtain ⟨d, hd, hdc⟩ := hmem3
  have hkd : keepChar C d = true := (List.mem_filter.mp hd).2
  have hkc : keepChar C c = true := by
    by_cases ht : (d == '\t') = true
    · rw [if_pos ht] at hdc
      rw [← hdc]
      simp [keepChar]
    · rw [if_neg ht] at hdc
      rw [← hdc]
      exact hkd
  exact ws_eq_space_of_keep C hws hdisj hkc

theorem clean_text_removed (C : CharClass) (hws : C.isWS ' ' = true) (x : Str)
    (h : ∀ c ∈ x, removedBy C c = true) : clean_text C x = [] := by
  simp only [clean_text]
  apply trimEnds_eq_nil
  intro c hc
  obtain ⟨hc3, hsym⟩ := List.mem_filter.mp (mem_collapseDouble hc)
  rw [List.mem_map] at hc3
  obtain ⟨d, hd, hdc⟩ := hc3
  obtain ⟨hdmem, hkeep⟩ := List.mem_filter.mp hd
  have hcsp : c = ' ' := by
    by_cases ht : (d == '\t') = true
    · rw [if_pos ht] at hdc
      exact hdc.symm
    · rw [if_neg ht] at hdc
      subst hdc
      rcases mem_collapseWSAux hdmem with h1 | ⟨h2, h3⟩
      · exact h1
      · exfalso
        have hrem := h d h2
        simp only [removedBy, Bool.or_eq_true] at hrem
        rcases hrem with (hw | hnk) | hs
        · rw [h3] at hw
          exact absurd hw (by simp)
        · rw [hkeep] at hnk
          exact absurd hnk (by simp)
        · rw [hs] at hsym
          exact absurd hsym (by simp)
  rw [hcsp]
  exact hws

/-- Claim C3: for every character class satisfying the Unicode facts
the code relies on (the space character is whitespace; a whitespace
character is neither a letter nor punctuation), the normalizer equals
the six-step reference pipeline worded by the spec, applied in order;
the empty input yields the empty output; and an input consisting solely
of removed characters yields the empty output. -/
theorem clean_text_spec (C : CharClass) (hws : C.isWS ' ' = true)
    (hdisj : ∀ c, C.isWS c = true → C.isL c = false ∧ C.isP c = false) (x : Str) :
    clean_text C x = normalize_spec C x ∧
    clean_text C [] = [] ∧
    ((∀ c ∈ x, removedBy C c = true) → clean_text C x = []) :=
  ⟨clean_text_eq_normalize_spec C hws hdisj x, rfl,
    fun h => clean_text_removed C hws x h⟩

theorem asciiClass_disj : ∀ c, asciiClass.isWS c = true →
    asciiClass.isL c = false ∧ asciiClass.isP c = false := by
  intro c h
  simp only [asciiClass, Bool.or_eq_true, beq_iff_eq] at h
  rcases h with ((h | h) | h) | h <;> subst h <;> exact ⟨by decide, by decide⟩

/-- Witness for claim C3: at the ASCII class, the pipeline equality at
a concrete input, the empty input, and an input made of removed
characters only (a digit, a special symbol, and a space). -/
theorem clean_text_spec_witness :
    clean_text asciiClass exRemoved = normalize_spec asciiClass exRemoved ∧
    clean_text asciiClass [] = [] ∧
    clean_text asciiClass exRemoved = [] := by
  have h := clean_text_spec asciiClass (by decide) asciiClass_disj exRemoved
  exact ⟨h.1, h.2.1, h.2.2 (by decide)⟩

/-! ## Claim C6 -/

theorem collapseWSAux_id (ws : Char → Bool) : ∀ l : Str,
    (∀ c ∈ l, ws c = true → c = ' ') → noDoubleSpace l = true →
    collapseWSAux ws false l = l := by
  intro l
  induction l with
  | nil => intro _ _; rfl
  | cons c rest ih =>
    intro hall hnd
    rw [collapseWSAux_cons]
    by_cases hc : ws c = true
    · have hc2 : c = ' ' := hall c (by simp) hc
      subst hc2
      rw [if_pos hc, if_neg (by simp)]
      congr 1
      cases rest with
      | nil => rfl
      | cons d rest2 =>
        have hd : ws d = false := by
          by_cases hdw : ws d = true
          · have hd2 : d = ' ' := hall d (by simp) hdw
            subst hd2
            simp [noDoubleSpace] at hnd
          · simpa using hdw
        have hih := ih (fun e he hw => hall e (by simp [he]) hw)
          (noDoubleSpace_tail hnd)
        rw [collapseWSAux_cons, if_neg (by simp [hd])] at hih ⊢
        exact hih
    · rw [if_neg hc]
      congr 1
      exact ih (fun e he hw => hall e (by simp [he]) hw) (noDoubleSpace_tail hnd)

theorem map_tab_id : ∀ z : Str, (∀ c ∈ z, c ≠ '\t') →
    z.map (fun c => if c == '\t' then ' ' else c) = z := by
  intro z hz
  induction z with
  | nil => rfl
  | cons c z ih =>
    simp only [List.map_cons]
    rw [if_neg (by simpa using hz c (by simp)),
      ih (fun d hd => hz d (by simp [hd]))]

theorem clean_text_eq_trim (C : CharClass) (y : Str)
    (hnd : noDoubleSpace y = true)
    (hchars : ∀ c ∈ y, c = ' ' ∨ (keepChar C c = true ∧ C.isWS c = false ∧
      specialSyms.contains c = false ∧ c ≠ '\t')) :
    clean_text C y = trimEnds C.isWS y := by
  simp only [clean_text]
  have h1 : collapseWS C.isWS y = y := by
    apply collapseWSAux_id
    · intro c hc hw
      rcases hchars c hc with h | ⟨_, hwf, _, _⟩
      · exact h
      · rw [hw] at hwf
        exact absurd hwf (by simp)
    · exact hnd
  rw [h1]
  have h2 : y.filter (keepChar C) = y := by
    apply List.filter_eq_self.mpr
    intro c hc
    rcases hchars c hc with h | ⟨hk, _, _, _⟩
    · subst h
      simp [keepChar]
    · exact hk
  rw [h2]
  have h3 : y.map (fun c => if c == '\t' then ' ' else c) = y := by
    apply map_tab_id
    intro c hc
    rcases hchars c hc with h | ⟨_, _, _, ht⟩
    · subst h
      decide
    · exact ht
  rw [h3]
  have h4 : y.filter (fun c => !(specialSyms.contains c)) = y := by
    apply List.filter_eq_self.mpr
    intro c hc
    rcases hchars c hc with h | ⟨_, _, hs, _⟩
    · subst h
      decide
    · simpa using hs
  rw [h4]
  rw [collapseDouble_id y hnd]

theorem noDoubleSpace_trimEnds {ws : Char → Bool} {l : Str}
    (h : noDoubleSpace l = true) : noDoubleSpace (trimEnds ws l) = true := by
  unfold trimEnds
  have hu : noDoubleSpace (l.dropWhile ws) = true := by
    have hsplit := List.takeWhile_append_dropWhile ws l
    rw [← hsplit] at h
    exact noDoubleSpace_of_append_right h
  have h3 := congrArg List.reverse
    (List.takeWhile_append_dropWhile ws (l.dropWhile ws).reverse)
  rw [List.reverse_append, List.reverse_reverse] at h3
  rw [← h3] at hu
  exact noDoubleSpace_of_append_left hu

/-- Claim C6 counterexample: the input consisting of the characters of
a 1 2 b contains only single spaces (no multi-space runs), yet
normalization is not idempotent on it: deleting the two digits creates
a triple-space run, the single non-recursive double-space pass leaves a
double space, and the second normalization collapses it further.  The
concrete character class agrees with the Unicode classes of the Rust
regexes on every character of this input: the letters are letters, the
digits are neither letters nor punctuation, and the space is
whitespace. -/
theorem clean_text_not_idempotent :
    singleSpaced asciiClass exC6 = true ∧
    clean_text asciiClass (clean_text asciiClass exC6) ≠
      clean_text asciiClass exC6 := by
  decide

/-- Claim C6, amended: normalization is idempotent on inputs that
contain only single spaces and otherwise only characters the normalizer
keeps unchanged (kept-class characters that are not whitespace, not one
of the seven special symbols, and not a tab); on such inputs a first
normalization only trims, and a second changes nothing.  The original
claim over all single-space-only inputs fails because character
deletion can merge separating spaces into runs. -/
theorem clean_text_idem_kept (C : CharClass) (x : Str)
    (hnd : noDoubleSpace x = true)
    (hchars : ∀ c ∈ x, c = ' ' ∨ (keepChar C c = true ∧ C.isWS c = false ∧
      specialSyms.contains c = false ∧ c ≠ '\t')) :
    clean_text C (clean_text C x) = clean_text C x := by
  rw [clean_text_eq_trim C x hnd hchars]
  have hndt : noDoubleSpace (trimEnds C.isWS x) = true := noDoubleSpace_trimEnds hnd
  have hct : ∀ c ∈ trimEnds C.isWS x, c = ' ' ∨ (keepChar C c = true ∧
      C.isWS c = false ∧ specialSyms.contains c = false ∧ c ≠ '\t') :=
    fun c hc => hchars c (mem_trimEnds hc)
  rw [clean_text_eq_trim C _ hndt hct]
  exact trimEnds_idem C.isWS x

/-- Witness for the amended claim C6 at a concrete kept-characters
input. -/
theorem clean_text_idem_kept_witness :
    clean_text asciiClass (clean_text asciiClass (strL "Hello, world!")) =
      clean_text asciiClass (strL "Hello, world!") :=
  clean_text_idem_kept asciiClass (strL "Hello, world!") (by decide) (by decide)

end Babylonify
